import Mathlib

/-!
Shallow embedding of the core of the rust-gc mark-and-sweep collector
(src/gc/src/gc.rs together with the handle and cell types of src/gc/src/lib.rs).

Machine integers (usize) are modelled as Nat with the 64-bit word size fixed;
reductions mod 2 ^ 64 are written out where overflow matters.  For a word
w < 2 ^ 64 the source's bit operations coincide with the arithmetic used here:
  w & ROOTS_MASK        =  w % 2 ^ 63
  (w & MARK_MASK) != 0  iff  2 ^ 63 <= w
  w | MARK_MASK         =  w % 2 ^ 63 + 2 ^ 63
  w & !MARK_MASK        =  w % 2 ^ 63

The heap (the intrusive chain hanging off GcState.boxes_start) is modelled as a
list of boxes in chain order; tracing only flips mark bits, so the chain
structure read by the walks is stable and a list is a faithful picture of it.
A payload's Trace::trace is modelled by the list of box ids it traces into
(children); the user's Finalize::finalize is modelled by a list of primitive
heap effects (finSteps): storing a handle into a reachable cell (addEdge),
removing one (delEdge), and leaking a fresh rooted clone of a handle
(incRoot).  finCount is a ghost counter of how many times the box's finalizer
has run; it corresponds to no run-time state.
-/

namespace RustGc

/-- Number of values of a 64-bit usize. -/
def USIZE_MOD : Nat := 2 ^ 64

/-- const MARK_MASK: usize = 1 << (usize::BITS - 1) -/
def MARK_MASK : Nat := 2 ^ 63

/-- const ROOTS_MASK: usize = !MARK_MASK (on a 64-bit word this is 2 ^ 63 - 1) -/
def ROOTS_MASK : Nat := MARK_MASK - 1

/-- const ROOTS_MAX: usize = ROOTS_MASK -/
def ROOTS_MAX : Nat := ROOTS_MASK

/-- GcBoxHeader::roots — self.roots.get() & ROOTS_MASK. -/
def hdrRoots (w : Nat) : Nat := w % MARK_MASK

/-- GcBoxHeader::is_marked — self.roots.get() & MARK_MASK != 0. -/
def hdrIsMarked (w : Nat) : Bool := decide (MARK_MASK ≤ w)

/-- GcBoxHeader::mark — self.roots.set(self.roots.get() | MARK_MASK). -/
def hdrMark (w : Nat) : Nat := w % MARK_MASK + MARK_MASK

/-- GcBoxHeader::unmark — self.roots.set(self.roots.get() & !MARK_MASK). -/
def hdrUnmark (w : Nat) : Nat := w % MARK_MASK

/-- GcBoxHeader::inc_roots — if the masked count is below ROOTS_MAX the whole
word is incremented (the check guarantees the high bit is unaffected);
otherwise the source panics, modelled as none. -/
def inc_roots (w : Nat) : Option Nat :=
  if w % MARK_MASK < ROOTS_MAX then some (w + 1) else none

/-- GcBoxHeader::dec_roots — wrapping decrement of the word, no underflow
check in the source. -/
def dec_roots (w : Nat) : Nat := (w + (USIZE_MOD - 1)) % USIZE_MOD

/-- One primitive effect of a user Finalize::finalize body: installing a
handle into some box's payload (addEdge), removing one (delEdge), or leaking
a fresh rooted clone of a handle to a box (incRoot, via Gc::clone +
mem::forget or a thread-local).  incRoot follows inc_roots' non-panicking
path; the scenarios below never reach the overflow panic. -/
inductive FinStep where
  | addEdge (parent child : Nat)
  | delEdge (parent child : Nat)
  | incRoot (tgt : Nat)
deriving Repr, DecidableEq

/-- A managed box: GcBox { header: GcBoxHeader, data: T }.
hdr is the header's roots word (bit 63 = mark flag), eph its ephemeron_flag.
children are the box ids the payload's Trace::trace traces into; weakRefs are
the ephemeron boxes the payload's weak_trace pushes; ephKey/ephValue are the
key/value boxes when the payload is an Ephemeron, none otherwise. -/
structure GcBox where
  id : Nat
  hdr : Nat
  eph : Bool
  children : List Nat
  ephKey : Option Nat := none
  ephValue : Option Nat := none
  weakRefs : List Nat := []
  finSteps : List FinStep := []
  finCount : Nat := 0
  size : Nat := 1
deriving Repr, DecidableEq

/-- The intrusive chain of boxes starting at GcState.boxes_start, in chain
order (most recently allocated first). -/
abbrev Heap := List GcBox

/-- Follow the chain to the box with the given id (pointer dereference). -/
def findBox (h : Heap) (n : Nat) : Option GcBox :=
  h.find? (fun b => b.id == n)

/-- Update the box with the given id in place (a Cell write through a
pointer); the chain structure is unchanged. -/
def updBox (h : Heap) (n : Nat) (f : GcBox → GcBox) : Heap :=
  h.map (fun b => if b.id = n then f b else b)

/-- header.mark() on the box with the given id. -/
def markBox (h : Heap) (n : Nat) : Heap :=
  updBox h n (fun b => { b with hdr := hdrMark b.hdr })

/-- header.is_marked() read through a pointer to the box with the given id. -/
def isMarked (h : Heap) (n : Nat) : Bool :=
  match findBox h n with
  | some b => hdrIsMarked b.hdr
  | none => false

/-- GcBox::trace_inner — if the box is unmarked and not an ephemeron, mark it
and run the payload's trace, which calls trace_inner on each child in order.
The source recursion terminates because every productive step first marks a
previously unmarked box, so its depth is at most the number of boxes; fuel
(heap length + 1 at every use below) bounds that depth. -/
def trace_inner : Nat → Heap → Nat → Heap
  | 0, h, _ => h
  | fuel + 1, h, n =>
    match findBox h n with
    | none => h
    | some b =>
      if hdrIsMarked b.hdr || b.eph then h
      else b.children.foldl (trace_inner fuel) (markBox h n)

/-- The first while-loop of collect_garbage's mark: walk the chain in order;
queue ephemerons, trace boxes with a positive root count, and push every
other box (roots() == 0 at the moment it is visited, marked or not) onto the
finalize queue.  Returns (heap, finalize queue, ephemeron queue), both queues
in discovery order. -/
def markWalk (fuel : Nat) : Heap → List Nat → Heap × List Nat × List Nat
  | h, [] => (h, [], [])
  | h, n :: rest =>
    match findBox h n with
    | none => markWalk fuel h rest
    | some b =>
      if b.eph then
        let r := markWalk fuel h rest
        (r.1, r.2.1, n :: r.2.2)
      else if 0 < hdrRoots b.hdr then
        markWalk fuel (trace_inner fuel h n) rest
      else
        let r := markWalk fuel h rest
        (r.1, n :: r.2.1, r.2.2)

/-- Trace::is_marked_ephemeron — true only for an Ephemeron payload whose key
box is marked (Ephemeron::is_marked); every other payload returns false. -/
def isMarkedEphemeron (h : Heap) (b : GcBox) : Bool :=
  match b.ephKey with
  | some k => isMarked h k
  | none => false

/-- Trace::weak_trace of a box's payload: push the ephemeron boxes of the
WeakGc/WeakPair handles it contains and recurse through its Gc children
(Gc::weak_trace runs the target's data.weak_trace with no visited check, so
the source recursion is bounded only by the graph; fuel caps it here). -/
def weakTraceData : Nat → Heap → Nat → List Nat
  | 0, _, _ => []
  | fuel + 1, h, n =>
    match findBox h n with
    | none => []
    | some b =>
      b.weakRefs ++ b.children.foldl (fun acc c => acc ++ weakTraceData fuel h c) []

/-- Ephemeron::weak_trace — if the key is marked, weak-trace the key's and
the value's payloads. -/
def weakTraceEph (fuel : Nat) (h : Heap) (b : GcBox) : List Nat :=
  if isMarkedEphemeron h b then
    (match b.ephKey with
     | some k => weakTraceData fuel h k
     | none => []) ++
    (match b.ephValue with
     | some v => weakTraceData fuel h v
     | none => [])
  else []

/-- The partitioning for-loop of the ephemeron evaluation: reachable
ephemerons (key marked) are marked as they are found; returns
(heap, reachable nodes, other nodes), each in queue order. -/
def ephPartition : Heap → List Nat → Heap × List Nat × List Nat
  | h, [] => (h, [], [])
  | h, n :: rest =>
    match findBox h n with
    | none => ephPartition h rest
    | some b =>
      if isMarkedEphemeron h b then
        let r := ephPartition (markBox h n) rest
        (r.1, n :: r.2.1, r.2.2)
      else
        let r := ephPartition h rest
        (r.1, r.2.1, n :: r.2.2)

/-- The ephemeron evaluation loop of mark: partition the queue, and either
stop (no reachable node: the leftover queue is returned for finalization) or
weak-trace every reachable node, appending what they push to the unreachable
remainder, and iterate.  The source loop has no termination guard at all;
fuel bounds the number of iterations. -/
def ephLoop : Nat → Heap → List Nat → Heap × List Nat
  | 0, h, q => (h, q)
  | fuel + 1, h, q =>
    let p := ephPartition h q
    if p.2.1.isEmpty then (p.1, p.2.2)
    else
      let q2 := p.2.1.foldl
        (fun acc n =>
          match findBox p.1 n with
          | some b => acc ++ weakTraceEph (fuel + 1) p.1 b
          | none => acc)
        p.2.2
      ephLoop fuel p.1 q2

/-- The box ids in chain order, fixed at the start of a walk (tracing never
changes the chain links). -/
def heapIds (h : Heap) : List Nat := h.map (fun b => b.id)

/-- The mark function nested in collect_garbage: the chain walk followed by
the ephemeron evaluation (skipped when no ephemeron was queued), returning
the heap and the finalize queue (unreachable chain boxes then leftover
ephemerons). -/
def markPhase (h : Heap) : Heap × List Nat :=
  let w := markWalk (h.length + 1) h (heapIds h)
  if w.2.2.isEmpty then (w.1, w.2.1)
  else
    let e := ephLoop (w.1.length + 1) w.1 w.2.2
    (e.1, w.2.1 ++ e.2)

/-- Apply one primitive finalizer effect.  addEdge/delEdge edit a payload;
incRoot is a leaked Gc::clone, taking inc_roots' non-panicking path. -/
def applyFinStep (h : Heap) : FinStep → Heap
  | .addEdge p c => updBox h p (fun b => { b with children := b.children ++ [c] })
  | .delEdge p c => updBox h p (fun b => { b with children := b.children.erase c })
  | .incRoot t =>
    updBox h t (fun b => { b with hdr := (inc_roots b.hdr).getD b.hdr })

/-- Run the user finalizer of box n: bump the ghost run counter, then apply
its effects in order. -/
def runFinalizer (h : Heap) (n : Nat) (steps : List FinStep) : Heap :=
  steps.foldl applyFinStep
    (updBox h n (fun b => { b with finCount := b.finCount + 1 }))

/-- Observable steps of a collection, recorded in execution order.  The Bool
on finalizerRun and freed is the value of the thread-local GC_DROPPING flag
at that moment. -/
inductive GcEvent where
  | markStart
  | markEnd
  | finalizerRun (id : Nat) (dropping : Bool)
  | sweepStart
  | sweepEnd
  | freed (id : Nat) (dropping : Bool)
deriving Repr, DecidableEq

/-- The finalize function nested in collect_garbage: for each queued node,
double-check that it is still unmarked and only then run its finalizer.
The queue order is preserved; GC_DROPPING carries the flag finalizers run
under. -/
def finalizePhase (dropping : Bool) : Heap → List Nat → Heap × List GcEvent
  | h, [] => (h, [])
  | h, n :: rest =>
    match findBox h n with
    | none => finalizePhase dropping h rest
    | some b =>
      if hdrIsMarked b.hdr then finalizePhase dropping h rest
      else
        let r := finalizePhase dropping (runFinalizer h n b.finSteps) rest
        (r.1, .finalizerRun n dropping :: r.2)

/-- The sweep function nested in collect_garbage: walk the chain; unmark and
keep marked boxes, splice out and free unmarked ones, subtracting their size
from bytes_allocated.  It runs under the DropGuard, so every freed payload is
dropped with GC_DROPPING set. -/
def sweepWalk : Heap → Nat → Heap × Nat × List GcEvent
  | [], bytes => ([], bytes, [])
  | b :: rest, bytes =>
    if hdrIsMarked b.hdr then
      let r := sweepWalk rest bytes
      ({ b with hdr := hdrUnmark b.hdr } :: r.1, r.2.1, r.2.2)
    else
      let r := sweepWalk rest (bytes - b.size)
      (r.1, r.2.1, .freed b.id true :: r.2.2)

/-- GcStats. -/
structure GcStats where
  bytes_allocated : Nat
  collections_performed : Nat
deriving Repr, DecidableEq

/-- GcConfig; used_space_ratio is an f64 in the source, modelled as an exact
rational. -/
structure GcConfig where
  threshold : Nat
  used_space_ratio : ℚ
  leak_on_drop : Bool

/-- GcState plus the thread-local GC_DROPPING flag that lives beside it. -/
structure GcState where
  stats : GcStats
  config : GcConfig
  boxes_start : Heap
  dropping : Bool

/-- collect_garbage: bump collections_performed, first mark, finalize the
queued unreachable nodes, mark again (its queue is the discarded _f), sweep
under the DropGuard.  Returns the new state and the event trace. -/
def collect_garbage (st : GcState) : GcState × List GcEvent :=
  let h1q := markPhase st.boxes_start
  let h2e := finalizePhase st.dropping h1q.1 h1q.2
  let h3f := markPhase h2e.1
  let sw := sweepWalk h3f.1 st.stats.bytes_allocated
  ({ st with
      stats := { bytes_allocated := sw.2.1,
                 collections_performed := st.stats.collections_performed + 1 },
      boxes_start := sw.1,
      dropping := false },
   [.markStart, .markEnd] ++ h2e.2 ++ [.markStart, .markEnd] ++
     [.sweepStart] ++ sw.2.2 ++ [.sweepEnd])

/-- GcBoxType. -/
inductive GcBoxType where
  | Standard
  | Weak
  | Ephemeron
deriving Repr, DecidableEq

/-- The fresh roots word: GcBoxHeader::new starts at 1 (unmarked, one root);
new_weak and new_ephemeron start at 0. -/
def newHdr : GcBoxType → Nat
  | .Standard => 1
  | .Weak => 0
  | .Ephemeron => 0

/-- Only GcBoxHeader::new_ephemeron sets the ephemeron_flag. -/
def newEph : GcBoxType → Bool
  | .Ephemeron => true
  | .Standard => false
  | .Weak => false

/-- GcBox::new — if bytes_allocated exceeds the threshold, collect first and,
when the survivors still exceed threshold * used_space_ratio, raise the
threshold to bytes_allocated / used_space_ratio (the f64 arithmetic is exact
rational arithmetic here; the usize cast truncates, i.e. floors).  Then
splice the new box onto the chain head and add its size to bytes_allocated.
t supplies the payload (children, finSteps, size, id); header and flag come
from the box type. -/
def gcBoxNew (st : GcState) (t : GcBox) (ty : GcBoxType) : GcState × List GcEvent :=
  let st1ev :=
    if st.config.threshold < st.stats.bytes_allocated then
      let c := collect_garbage st
      if (c.1.config.threshold : ℚ) * c.1.config.used_space_ratio
          < (c.1.stats.bytes_allocated : ℚ) then
        ({ c.1 with config := { c.1.config with
            threshold :=
              (⌊(c.1.stats.bytes_allocated : ℚ) / c.1.config.used_space_ratio⌋).toNat } },
         c.2)
      else c
    else (st, [])
  let st1 := st1ev.1
  let b := { t with hdr := newHdr ty, eph := newEph ty, finCount := 0 }
  ({ st1 with
      boxes_start := b :: st1.boxes_start,
      stats := { st1.stats with
        bytes_allocated := st1.stats.bytes_allocated + t.size } },
   st1ev.2)

/-- finalizer_safe() — true unless GC_DROPPING is set. -/
def finalizer_safe (dropping : Bool) : Bool := !dropping

/-- Gc<T>: one machine word, a pointer to the box with the per-handle rooted
flag stolen in its least significant bit (box addresses are even: the model
takes the address of box id to be 2 * id). -/
structure Gc where
  ptr_root : Nat
deriving Repr, DecidableEq

/-- Gc::rooted — the stolen low bit. -/
def Gc.rooted (g : Gc) : Bool := g.ptr_root % 2 == 1

/-- clear_root_bit followed by reading the address: the id of the target
box. -/
def Gc.target (g : Gc) : Nat := g.ptr_root / 2

/-- Gc::set_root — addr | 1. -/
def Gc.set_root (g : Gc) : Gc := ⟨g.ptr_root / 2 * 2 + 1⟩

/-- Gc::clear_root — addr & !1. -/
def Gc.clear_root (g : Gc) : Gc := ⟨g.ptr_root / 2 * 2⟩

/-- A handle to box id with the given rooted bit. -/
def mkGc (id : Nat) (rooted : Bool) : Gc :=
  ⟨2 * id + if rooted then 1 else 0⟩

/-- Gc::inner_ptr / Deref — assert!(finalizer_safe()) panics (none) while
GC_DROPPING is set; otherwise follow the pointer. -/
def gcDeref (dropping : Bool) (h : Heap) (g : Gc) : Option GcBox :=
  if dropping then none else findBox h g.target

/-- Gc::clone — inner().root_inner() (inner asserts finalizer_safe, root_inner
may hit the roots-overflow panic), then a new handle to the same box with its
root bit set. -/
def gcClone (dropping : Bool) (h : Heap) (g : Gc) : Option (Heap × Gc) :=
  if dropping then none
  else
    match findBox h g.target with
    | none => none
    | some b =>
      match inc_roots b.hdr with
      | none => none
      | some w =>
        some (updBox h g.target (fun bb => { bb with hdr := w }), Gc.set_root g)

/-- Drop for Gc — if the handle is rooted, inner().unroot_inner() (inner
asserts finalizer_safe; unroot_inner is dec_roots); otherwise nothing. -/
def gcDrop (dropping : Bool) (h : Heap) (g : Gc) : Option Heap :=
  if g.rooted then
    if dropping then none
    else some (updBox h g.target (fun b => { b with hdr := dec_roots b.hdr }))
  else some h

/-- Trace::root for Gc — assert the handle is not already rooted (else the
double-root panic), inc the target's roots, set the bit. -/
def gcRoot (h : Heap) (g : Gc) : Option (Heap × Gc) :=
  if g.rooted then none
  else
    match findBox h g.target with
    | none => none
    | some b =>
      match inc_roots b.hdr with
      | none => none
      | some w =>
        some (updBox h g.target (fun bb => { bb with hdr := w }), Gc.set_root g)

/-- Trace::unroot for Gc — assert the handle is rooted (else the
double-unroot panic), dec the target's roots, clear the bit. -/
def gcUnroot (h : Heap) (g : Gc) : Option (Heap × Gc) :=
  if g.rooted then
    some (updBox h g.target (fun b => { b with hdr := dec_roots b.hdr }), Gc.clear_root g)
  else none

/-- n successive Gc::clone calls on the same handle (none as soon as one
panics); returns the heap and the clones. -/
def gcCloneN (dropping : Bool) : Nat → Heap → Gc → Option (Heap × List Gc)
  | 0, h, _ => some (h, [])
  | n + 1, h, g =>
    match gcClone dropping h g with
    | none => none
    | some hg =>
      match gcCloneN dropping n hg.1 g with
      | none => none
      | some hl => some (hl.1, hg.2 :: hl.2)

/-- Drop every handle in the list in order. -/
def gcDropAll (dropping : Bool) : Heap → List Gc → Option Heap
  | h, [] => some h
  | h, g :: gs =>
    match gcDrop dropping h g with
    | none => none
    | some h2 => gcDropAll dropping h2 gs

/-- const ROOT: usize = 1 (the rooted bit of a GcCell's BorrowFlag). -/
def ROOT : Nat := 1

/-- const WRITING: usize = !1 (on 64 bits: 2 ^ 64 - 2). -/
def WRITING : Nat := USIZE_MOD - 2

/-- const UNUSED: usize = 0. -/
def UNUSED : Nat := 0

/-- const BORROWFLAG_INIT: BorrowFlag = BorrowFlag(1) — rooted, no borrows. -/
def BORROWFLAG_INIT : Nat := 1

/-- BorrowState. -/
inductive BorrowState where
  | reading
  | writing
  | unused
deriving Repr, DecidableEq

/-- BorrowFlag::borrowed — match on self.0 & !ROOT (bit 0 cleared, written
f / 2 * 2 for a Nat f). -/
def borrowed (f : Nat) : BorrowState :=
  if f / 2 * 2 = UNUSED then .unused
  else if f / 2 * 2 = WRITING then .writing
  else .reading

/-- BorrowFlag::rooted — self.0 & ROOT. -/
def flagRooted (f : Nat) : Bool := f % 2 == 1

/-- BorrowFlag::set_writing — self.0 | WRITING (root bit preserved). -/
def set_writing (f : Nat) : Nat := f % 2 + WRITING

/-- BorrowFlag::set_unused — self.0 & ROOT (root bit preserved). -/
def set_unused (f : Nat) : Nat := f % 2

/-- BorrowFlag::add_reading — self.0 + 0b10 (wrapping on the word). -/
def add_reading (f : Nat) : Nat := (f + 2) % USIZE_MOD

/-- BorrowFlag::sub_reading — self.0 - 0b10 (wrapping on the word). -/
def sub_reading (f : Nat) : Nat := (f + (USIZE_MOD - 2)) % USIZE_MOD

/-- BorrowFlag::set_rooted — preserve the non-root bits, set bit 0. -/
def set_rooted (f : Nat) (r : Bool) : Nat := f / 2 * 2 + (if r then 1 else 0)

/-- A GcCell whose payload is a single managed handle: the borrow-flag word
and the contained Gc.  This is the payload shape the rooting interaction is
about; a larger payload only adds more handles treated the same way. -/
structure GcCellG where
  flags : Nat
  inner : Gc
deriving Repr, DecidableEq

/-- Outcome of GcCell::try_borrow_mut: the BorrowMutError result, a panic
from the contents' root() (double-root or roots overflow), or success with
the updated heap and cell-plus-guard state. -/
inductive BorrowMutResult where
  | borrowErr
  | panicked
  | ok (h : Heap) (c : GcCellG)
deriving Repr, DecidableEq

/-- GcCell::try_borrow_mut — error unless the state is unused; set the
writer sentinel; if the cell is not rooted, root the contents so they stay
rooted for the duration of the mutable borrow. -/
def try_borrow_mut (h : Heap) (c : GcCellG) : BorrowMutResult :=
  if borrowed c.flags ≠ BorrowState.unused then .borrowErr
  else if flagRooted (set_writing c.flags) then
    .ok h { c with flags := set_writing c.flags }
  else
    match gcRoot h c.inner with
    | none => .panicked
    | some hg => .ok hg.1 { flags := set_writing c.flags, inner := hg.2 }

/-- Drop for GcCellRefMut — if the cell is (still) not rooted, unroot the
contents; then restore the unused state, preserving the root bit. -/
def gcCellRefMutDrop (h : Heap) (c : GcCellG) : Option (Heap × GcCellG) :=
  if flagRooted c.flags then some (h, { c with flags := set_unused c.flags })
  else
    match gcUnroot h c.inner with
    | none => none
    | some hg => some (hg.1, { flags := set_unused c.flags, inner := hg.2 })

/-- The ids of the finalizers that ran, in order, read off an event trace. -/
def evIds (log : List GcEvent) : List Nat :=
  log.filterMap (fun e =>
    match e with
    | .finalizerRun n _ => some n
    | _ => none)

/-- The visit-time candidate condition of the first mark walk: a chain box
whose payload is not an ephemeron and whose root count is zero is pushed
onto the finalize queue (marked or not). -/
def zeroRootCond (h : Heap) (n : Nat) : Bool :=
  match findBox h n with
  | some b => !b.eph && (hdrRoots b.hdr == 0)
  | none => false

/-- The visit-time ephemeron condition of the first mark walk. -/
def ephCond (h : Heap) (n : Nat) : Bool :=
  match findBox h n with
  | some b => b.eph
  | none => false

/-- A box with its mark bit stripped: the part of a box that marking cannot
change. -/
def stripMark (b : GcBox) : GcBox := { b with hdr := hdrUnmark b.hdr }

/-- The whole heap with mark bits stripped. -/
def stripHeap (h : Heap) : Heap := h.map stripMark

/-! ### Concrete scenario states used by the claim theorems -/

/-- The default GcConfig (threshold 100, used_space_ratio 0.7). -/
def defaultConfig : GcConfig :=
  { threshold := 100, used_space_ratio := 7 / 10, leak_on_drop := false }

/-- A rooted box holding nothing (roots word 1). -/
def c1Root : GcBox := { id := 0, hdr := 1, eph := false, children := [] }

/-- An unreachable box whose finalizer stores a handle to itself into the
rooted box's payload — the resurrection pattern of the repository's
finalize/resurrection tests. -/
def c1Cand : GcBox :=
  { id := 1, hdr := 0, eph := false, children := [], finSteps := [.addEdge 0 1] }

def c1State : GcState :=
  { stats := { bytes_allocated := 2, collections_performed := 0 },
    config := defaultConfig, boxes_start := [c1Root, c1Cand], dropping := false }

/-- An unreachable box whose finalizer leaks a rooted clone of a handle to
itself (resurrection by rooting). -/
def c2Box : GcBox :=
  { id := 5, hdr := 0, eph := false, children := [], finSteps := [.incRoot 5] }

def c2State : GcState :=
  { stats := { bytes_allocated := 1, collections_performed := 0 },
    config := defaultConfig, boxes_start := [c2Box], dropping := false }

/-- The state after the first collection once the user drops the handle the
finalizer leaked: the box is unreachable again. -/
def c2StateAfterDrop : GcState :=
  { (collect_garbage c2State).1 with
    boxes_start :=
      (gcDrop false (collect_garbage c2State).1.boxes_start (mkGc 5 true)).getD [] }

def c3Box : GcBox := { id := 3, hdr := 0, eph := false, children := [] }

def c3State : GcState :=
  { stats := { bytes_allocated := 1, collections_performed := 0 },
    config := defaultConfig, boxes_start := [c3Box], dropping := false }

def c4Box : GcBox := { id := 0, hdr := 1, eph := false, children := [] }

def c4State : GcState :=
  { stats := { bytes_allocated := 1, collections_performed := 0 },
    config := defaultConfig, boxes_start := [c4Box], dropping := false }

def c6Box : GcBox := { id := 7, hdr := 1, eph := false, children := [] }

def c7Box : GcBox := { id := 9, hdr := 1, eph := false, children := [] }

def c8State : GcState :=
  { stats := { bytes_allocated := 10, collections_performed := 0 },
    config := defaultConfig, boxes_start := [], dropping := false }

def c8NewBox : GcBox :=
  { id := 11, hdr := 0, eph := false, children := [], size := 4 }

def c9Box : GcBox := { id := 12, hdr := 1, eph := false, children := [] }

def c9State : GcState :=
  { stats := { bytes_allocated := 1, collections_performed := 0 },
    config := defaultConfig, boxes_start := [c9Box], dropping := false }

def c9NewBox : GcBox := { id := 13, hdr := 0, eph := false, children := [] }

def c10Root : GcBox := { id := 20, hdr := 1, eph := false, children := [21] }

def c10Cand : GcBox := { id := 21, hdr := 0, eph := false, children := [] }

def c10Lone : GcBox := { id := 22, hdr := 0, eph := false, children := [] }

def c10State : GcState :=
  { stats := { bytes_allocated := 3, collections_performed := 0 },
    config := defaultConfig, boxes_start := [c10Root, c10Cand, c10Lone],
    dropping := false }

/-! ### Word-level lemmas -/

lemma mark_mask_eq : MARK_MASK = 2 ^ 63 := rfl

lemma hdrRoots_hdrMark (w : Nat) : hdrRoots (hdrMark w) = hdrRoots w := by
  unfold hdrRoots hdrMark
  rw [Nat.add_mod_right]
  exact Nat.mod_mod_of_dvd w dvd_rfl

lemma hdrRoots_hdrUnmark (w : Nat) : hdrRoots (hdrUnmark w) = hdrRoots w := by
  unfold hdrRoots hdrUnmark
  exact Nat.mod_mod_of_dvd w dvd_rfl

lemma hdrIsMarked_hdrMark (w : Nat) : hdrIsMarked (hdrMark w) = true := by
  simp only [hdrIsMarked, hdrMark, decide_eq_true_eq]
  omega

lemma hdrIsMarked_hdrUnmark (w : Nat) : hdrIsMarked (hdrUnmark w) = false := by
  simp only [hdrIsMarked, hdrUnmark, decide_eq_false_iff_not, not_le]
  exact Nat.mod_lt _ (by norm_num [MARK_MASK])

lemma hdrUnmark_hdrMark (w : Nat) : hdrUnmark (hdrMark w) = hdrUnmark w := by
  unfold hdrUnmark hdrMark
  rw [Nat.add_mod_right]
  exact Nat.mod_mod_of_dvd w dvd_rfl

lemma stripMark_markBoxed (b : GcBox) :
    stripMark { b with hdr := hdrMark b.hdr } = stripMark b := by
  simp [stripMark, hdrUnmark_hdrMark]

lemma inc_roots_eq_none_iff (w : Nat) :
    inc_roots w = none ↔ hdrRoots w = ROOTS_MAX := by
  have hm : MARK_MASK = 2 ^ 63 := rfl
  have hr : ROOTS_MAX = 2 ^ 63 - 1 := rfl
  simp only [inc_roots, hdrRoots, hm, hr, ite_eq_right_iff]
  constructor
  · intro hcontra
    by_contra hne
    have hlt : w % 2 ^ 63 < 2 ^ 63 := Nat.mod_lt _ (by norm_num)
    have := hcontra (by omega)
    exact Option.noConfusion this
  · intro heq
    omega

lemma inc_roots_some (w v : Nat) (hw : w < USIZE_MOD) (hv : inc_roots w = some v) :
    v = w + 1 ∧ hdrRoots v = hdrRoots w + 1 ∧ hdrIsMarked v = hdrIsMarked w ∧
      v < USIZE_MOD := by
  have hm : MARK_MASK = 2 ^ 63 := rfl
  have hu : USIZE_MOD = 2 ^ 64 := rfl
  simp only [inc_roots] at hv
  by_cases hc : w % MARK_MASK < ROOTS_MAX
  · simp only [hc, if_pos] at hv
    have hveq : v = w + 1 := by exact (Option.some.injEq _ _).mp hv.symm
    subst hveq
    have hrm : ROOTS_MAX = 2 ^ 63 - 1 := rfl
    rw [hm] at hc
    rw [hrm] at hc
    refine ⟨rfl, ?_, ?_, by omega⟩
    · simp only [hdrRoots, hm]
      omega
    · simp only [hdrIsMarked, hm]
      have : w % 2 ^ 63 < 2 ^ 63 - 1 := hc
      rcases Nat.lt_or_ge w (2 ^ 63) with hlt | hge
      · have h1 : w % 2 ^ 63 = w := Nat.mod_eq_of_lt hlt
        have : w + 1 < 2 ^ 63 := by omega
        simp only [decide_eq_decide]
        omega
      · simp only [decide_eq_decide]
        omega
  · simp only [hc, if_neg, if_false] at hv
    exact Option.noConfusion hv

lemma dec_roots_of_pos (w : Nat) (h1 : 1 ≤ w) (h2 : w < USIZE_MOD) :
    dec_roots w = w - 1 := by
  have hu : USIZE_MOD = 2 ^ 64 := rfl
  simp only [dec_roots, hu]
  have : w + (2 ^ 64 - 1) = (w - 1) + 1 * 2 ^ 64 := by omega
  rw [this, Nat.add_mul_mod_self_right]
  exact Nat.mod_eq_of_lt (by omega)

/-! ### findBox / updBox lemmas -/

lemma findBox_nil (n : Nat) : findBox [] n = none := rfl

lemma findBox_cons (b : GcBox) (t : Heap) (n : Nat) :
    findBox (b :: t) n = if b.id = n then some b else findBox t n := by
  simp only [findBox, List.find?]
  by_cases hb : b.id = n
  · have hbe : (b.id == n) = true := beq_iff_eq.mpr hb
    rw [hbe, if_pos hb]
  · have hbe : (b.id == n) = false := beq_eq_false_iff_ne.mpr hb
    rw [hbe, if_neg hb]

lemma updBox_cons (b : GcBox) (t : Heap) (n : Nat) (f : GcBox → GcBox) :
    updBox (b :: t) n f =
      (if b.id = n then f b else b) :: updBox t n f := rfl

lemma findBox_updBox (h : Heap) (n : Nat) (f : GcBox → GcBox)
    (hid : ∀ b, (f b).id = b.id) (m : Nat) :
    findBox (updBox h n f) m =
      if m = n then (findBox h n).map f else findBox h m := by
  induction h with
  | nil => simp [findBox, updBox]
  | cons b t ih =>
    rw [updBox_cons, findBox_cons]
    by_cases hbn : b.id = n
    · rw [if_pos hbn]
      by_cases hmn : m = n
      · subst hmn
        rw [if_pos ((hid b).trans hbn), if_pos rfl, findBox_cons, if_pos hbn]
        rfl
      · have hfb : ¬ (f b).id = m := by
          rw [hid b, hbn]
          intro hc
          exact hmn hc.symm
        have hbm : ¬ b.id = m := by
          rw [hbn]
          intro hc
          exact hmn hc.symm
        rw [if_neg hfb, if_neg hmn, ih, if_neg hmn, findBox_cons, if_neg hbm]
    · rw [if_neg hbn]
      by_cases hbm : b.id = m
      · have hmn : ¬ m = n := by
          intro hc
          apply hbn
          rw [hbm, hc]
        rw [if_pos hbm, if_neg hmn, findBox_cons, if_pos hbm]
      · rw [if_neg hbm, ih]
        by_cases hmn : m = n
        · rw [if_pos hmn, if_pos hmn, findBox_cons, if_neg hbn]
        · rw [if_neg hmn, if_neg hmn, findBox_cons, if_neg hbm]

lemma heapIds_updBox (h : Heap) (n : Nat) (f : GcBox → GcBox)
    (hid : ∀ b, (f b).id = b.id) :
    heapIds (updBox h n f) = heapIds h := by
  simp only [heapIds, updBox, List.map_map]
  apply List.map_congr_left
  intro b _
  by_cases hb : b.id = n
  · simp [Function.comp, hb, hid]
  · simp [Function.comp, hb]

lemma stripHeap_markBox (h : Heap) (n : Nat) :
    stripHeap (markBox h n) = stripHeap h := by
  simp only [stripHeap, markBox, updBox, List.map_map]
  apply List.map_congr_left
  intro b _
  by_cases hb : b.id = n
  · simp only [Function.comp, if_pos hb]
    exact stripMark_markBoxed b
  · simp [Function.comp, hb]

lemma stripHeap_foldl_markBox (s : List Nat) :
    ∀ h : Heap, stripHeap (s.foldl markBox h) = stripHeap h := by
  induction s with
  | nil => intro h; rfl
  | cons a t ih =>
    intro h
    rw [List.foldl_cons, ih, stripHeap_markBox]

lemma findBox_stripHeap (h : Heap) (n : Nat) :
    findBox (stripHeap h) n = (findBox h n).map stripMark := by
  simp only [findBox, stripHeap]
  rw [List.find?_map]
  have : (fun b => b.id == n) ∘ stripMark = (fun b : GcBox => b.id == n) := by
    funext b
    simp [stripMark, Function.comp]
  rw [this]

/-! ### Tracing only sets mark bits -/

lemma exists_marks_foldl_aux (g : Heap → Nat → Heap)
    (hg : ∀ (h : Heap) (n : Nat), ∃ s : List Nat, g h n = s.foldl markBox h) :
    ∀ (l : List Nat) (h : Heap), ∃ s : List Nat, l.foldl g h = s.foldl markBox h := by
  intro l
  induction l with
  | nil => exact fun h => ⟨[], rfl⟩
  | cons c cs ih =>
    intro h
    obtain ⟨s1, h1⟩ := hg h c
    obtain ⟨s2, h2⟩ := ih (g h c)
    refine ⟨s1 ++ s2, ?_⟩
    rw [List.foldl_cons, h2, h1, List.foldl_append]

lemma trace_inner_foldl (fuel : Nat) :
    ∀ (h : Heap) (n : Nat), ∃ s : List Nat, trace_inner fuel h n = s.foldl markBox h := by
  induction fuel with
  | zero => exact fun h n => ⟨[], rfl⟩
  | succ fuel ih =>
    intro h n
    cases hf : findBox h n with
    | none => exact ⟨[], by simp only [trace_inner, hf, List.foldl_nil]⟩
    | some b =>
      by_cases hm : (hdrIsMarked b.hdr || b.eph) = true
      · exact ⟨[], by simp only [trace_inner, hf, if_pos hm, List.foldl_nil]⟩
      · obtain ⟨s, hs⟩ :=
          exists_marks_foldl_aux (trace_inner fuel) ih b.children (markBox h n)
        refine ⟨n :: s, ?_⟩
        simp only [trace_inner, hf, if_neg hm, List.foldl_cons]
        exact hs

lemma stripHeap_trace_inner (fuel : Nat) (h : Heap) (n : Nat) :
    stripHeap (trace_inner fuel h n) = stripHeap h := by
  obtain ⟨s, hs⟩ := trace_inner_foldl fuel h n
  rw [hs, stripHeap_foldl_markBox]

lemma stripMark_eph (b : GcBox) : (stripMark b).eph = b.eph := rfl

lemma stripMark_id (b : GcBox) : (stripMark b).id = b.id := rfl

lemma hdrRoots_stripMark (b : GcBox) : hdrRoots (stripMark b).hdr = hdrRoots b.hdr :=
  hdrRoots_hdrUnmark b.hdr

lemma findBox_map_strip_congr (h h' : Heap) (hs : stripHeap h' = stripHeap h) (n : Nat) :
    (findBox h' n).map stripMark = (findBox h n).map stripMark := by
  rw [← findBox_stripHeap, ← findBox_stripHeap, hs]

lemma zeroRootCond_congr (h h' : Heap) (hs : stripHeap h' = stripHeap h) :
    zeroRootCond h' = zeroRootCond h := by
  funext n
  have hmap := findBox_map_strip_congr h h' hs n
  unfold zeroRootCond
  cases hf' : findBox h' n with
  | none =>
    cases hf : findBox h n with
    | none => rfl
    | some b =>
      rw [hf', hf] at hmap
      exact Option.noConfusion hmap
  | some b' =>
    cases hf : findBox h n with
    | none =>
      rw [hf', hf] at hmap
      exact Option.noConfusion hmap
    | some b =>
      rw [hf', hf] at hmap
      simp only [Option.map_some', Option.some.injEq] at hmap
      have heph : b'.eph = b.eph := by
        rw [← stripMark_eph b', hmap, stripMark_eph]
      have hroots : hdrRoots b'.hdr = hdrRoots b.hdr := by
        rw [← hdrRoots_stripMark b', hmap, hdrRoots_stripMark]
      show (!b'.eph && (hdrRoots b'.hdr == 0)) = (!b.eph && (hdrRoots b.hdr == 0))
      rw [heph, hroots]

lemma ephCond_congr (h h' : Heap) (hs : stripHeap h' = stripHeap h) :
    ephCond h' = ephCond h := by
  funext n
  have hmap := findBox_map_strip_congr h h' hs n
  unfold ephCond
  cases hf' : findBox h' n with
  | none =>
    cases hf : findBox h n with
    | none => rfl
    | some b =>
      rw [hf', hf] at hmap
      exact Option.noConfusion hmap
  | some b' =>
    cases hf : findBox h n with
    | none =>
      rw [hf', hf] at hmap
      exact Option.noConfusion hmap
    | some b =>
      rw [hf', hf] at hmap
      simp only [Option.map_some', Option.some.injEq] at hmap
      show b'.eph = b.eph
      rw [← stripMark_eph b', hmap, stripMark_eph]

lemma markWalk_strip (fuel : Nat) :
    ∀ (ids : List Nat) (h : Heap), stripHeap (markWalk fuel h ids).1 = stripHeap h := by
  intro ids
  induction ids with
  | nil => exact fun h => rfl
  | cons n rest ih =>
    intro h
    cases hf : findBox h n with
    | none =>
      simp only [markWalk, hf]
      exact ih h
    | some b =>
      by_cases he : b.eph = true
      · simp only [markWalk, hf, if_pos he]
        exact ih h
      · by_cases hr : 0 < hdrRoots b.hdr
        · simp only [markWalk, hf, if_neg he, if_pos hr]
          rw [ih (trace_inner fuel h n), stripHeap_trace_inner]
        · simp only [markWalk, hf, if_neg he, if_neg hr]
          exact ih h

lemma markWalk_queues (fuel : Nat) :
    ∀ (ids : List Nat) (h : Heap),
      (markWalk fuel h ids).2.1 = ids.filter (zeroRootCond h) ∧
      (markWalk fuel h ids).2.2 = ids.filter (ephCond h) := by
  intro ids
  induction ids with
  | nil => exact fun h => ⟨rfl, rfl⟩
  | cons n rest ih =>
    intro h
    cases hf : findBox h n with
    | none =>
      have hz : zeroRootCond h n = false := by
        unfold zeroRootCond
        rw [hf]
      have hep : ephCond h n = false := by
        unfold ephCond
        rw [hf]
      rw [List.filter_cons, List.filter_cons, hz, hep,
        if_neg Bool.false_ne_true, if_neg Bool.false_ne_true]
      simp only [markWalk, hf]
      exact ih h
    | some b =>
      by_cases he : b.eph = true
      · have hz : zeroRootCond h n = false := by
          unfold zeroRootCond
          rw [hf]
          show (!b.eph && (hdrRoots b.hdr == 0)) = false
          rw [he]
          rfl
        have hep : ephCond h n = true := by
          unfold ephCond
          rw [hf]
          exact he
        rw [List.filter_cons, List.filter_cons, hz, hep,
          if_neg Bool.false_ne_true, if_pos rfl]
        simp only [markWalk, hf, if_pos he]
        have hih := ih h
        exact ⟨hih.1, by rw [hih.2]⟩
      · by_cases hr : 0 < hdrRoots b.hdr
        · have hz : zeroRootCond h n = false := by
            unfold zeroRootCond
            rw [hf]
            show (!b.eph && (hdrRoots b.hdr == 0)) = false
            have : (hdrRoots b.hdr == 0) = false := by
              rw [beq_eq_false_iff_ne]
              omega
            rw [this, Bool.and_false]
          have hep : ephCond h n = false := by
            unfold ephCond
            rw [hf]
            show b.eph = false
            simpa using he
          rw [List.filter_cons, List.filter_cons, hz, hep,
            if_neg Bool.false_ne_true, if_neg Bool.false_ne_true]
          simp only [markWalk, hf, if_neg he, if_pos hr]
          have htr := ih (trace_inner fuel h n)
          have hsz : zeroRootCond (trace_inner fuel h n) = zeroRootCond h :=
            zeroRootCond_congr h _ (stripHeap_trace_inner fuel h n)
          have hse : ephCond (trace_inner fuel h n) = ephCond h :=
            ephCond_congr h _ (stripHeap_trace_inner fuel h n)
          rw [hsz] at htr
          rw [hse] at htr
          exact htr
        · have hz : zeroRootCond h n = true := by
            unfold zeroRootCond
            rw [hf]
            show (!b.eph && (hdrRoots b.hdr == 0)) = true
            have h1 : b.eph = false := by simpa using he
            have h2 : (hdrRoots b.hdr == 0) = true := by
              rw [beq_iff_eq]
              omega
            rw [h1, h2]
            rfl
          have hep : ephCond h n = false := by
            unfold ephCond
            rw [hf]
            show b.eph = false
            simpa using he
          rw [List.filter_cons, List.filter_cons, hz, hep,
            if_pos rfl, if_neg Bool.false_ne_true]
          simp only [markWalk, hf, if_neg he, if_neg hr]
          have hih := ih h
          exact ⟨by rw [hih.1], hih.2⟩

lemma ephCond_of_no_eph (h : Heap) (hne : ∀ b ∈ h, b.eph = false) (n : Nat) :
    ephCond h n = false := by
  unfold ephCond
  cases hf : findBox h n with
  | none => rfl
  | some b =>
    have hb : b ∈ h := by
      have := List.mem_of_find?_eq_some hf
      exact this
    exact hne b hb

lemma markPhase_no_eph (h : Heap) (hne : ∀ b ∈ h, b.eph = false) :
    (markPhase h).2 = (heapIds h).filter (zeroRootCond h) ∧
      stripHeap (markPhase h).1 = stripHeap h := by
  obtain ⟨hq1, hq2⟩ := markWalk_queues (h.length + 1) (heapIds h) h
  have heph : (heapIds h).filter (ephCond h) = [] := by
    apply List.filter_eq_nil_iff.mpr
    intro n _
    rw [ephCond_of_no_eph h hne n]
    exact Bool.false_ne_true
  have hempty : (markWalk (h.length + 1) h (heapIds h)).2.2.isEmpty = true := by
    rw [hq2, heph]
    rfl
  constructor
  · simp only [markPhase]
    rw [if_pos hempty]
    exact hq1
  · simp only [markPhase]
    rw [if_pos hempty]
    exact markWalk_strip _ _ h

/-! ### Finalization lemmas -/

lemma isMarked_updBox_of_preserve (h : Heap) (n : Nat) (f : GcBox → GcBox) (m : Nat)
    (hid : ∀ b, (f b).id = b.id)
    (hmk : ∀ b, hdrIsMarked (f b).hdr = hdrIsMarked b.hdr) :
    isMarked (updBox h n f) m = isMarked h m := by
  unfold isMarked
  rw [findBox_updBox h n f hid m]
  by_cases hmn : m = n
  · rw [if_pos hmn, hmn]
    cases hf : findBox h n with
    | none => rfl
    | some b => simp [hmk]
  · rw [if_neg hmn]

lemma hdrIsMarked_inc_roots_getD (w : Nat) :
    hdrIsMarked ((inc_roots w).getD w) = hdrIsMarked w := by
  unfold inc_roots
  by_cases hc : w % MARK_MASK < ROOTS_MAX
  · rw [if_pos hc, Option.getD_some]
    have hM : MARK_MASK = 2 ^ 63 := rfl
    have hR : ROOTS_MAX = 2 ^ 63 - 1 := rfl
    rw [hM, hR] at hc
    simp only [hdrIsMarked, hM, decide_eq_decide]
    omega
  · rw [if_neg hc, Option.getD_none]

lemma isMarked_applyFinStep (h : Heap) (s : FinStep) (m : Nat) :
    isMarked (applyFinStep h s) m = isMarked h m := by
  cases s with
  | addEdge p c => exact isMarked_updBox_of_preserve h p _ m (fun b => rfl) (fun b => rfl)
  | delEdge p c => exact isMarked_updBox_of_preserve h p _ m (fun b => rfl) (fun b => rfl)
  | incRoot t =>
    exact isMarked_updBox_of_preserve h t _ m (fun b => rfl)
      (fun b => hdrIsMarked_inc_roots_getD b.hdr)

lemma isMarked_foldl_applyFinStep (steps : List FinStep) :
    ∀ (h : Heap) (m : Nat), isMarked (steps.foldl applyFinStep h) m = isMarked h m := by
  induction steps with
  | nil => exact fun h m => rfl
  | cons s t ih =>
    intro h m
    rw [List.foldl_cons, ih, isMarked_applyFinStep]

lemma isMarked_runFinalizer (h : Heap) (n : Nat) (steps : List FinStep) (m : Nat) :
    isMarked (runFinalizer h n steps) m = isMarked h m := by
  unfold runFinalizer
  rw [isMarked_foldl_applyFinStep]
  exact isMarked_updBox_of_preserve h n _ m (fun b => rfl) (fun b => rfl)

lemma evIds_cons_fin (n : Nat) (d : Bool) (log : List GcEvent) :
    evIds (GcEvent.finalizerRun n d :: log) = n :: evIds log := rfl

lemma mem_evIds (n : Nat) (d : Bool) (log : List GcEvent)
    (hm : GcEvent.finalizerRun n d ∈ log) : n ∈ evIds log := by
  unfold evIds
  exact List.mem_filterMap.mpr ⟨GcEvent.finalizerRun n d, hm, rfl⟩

lemma finalizePhase_spec (d : Bool) :
    ∀ (q : List Nat) (h : Heap),
      (∀ e ∈ (finalizePhase d h q).2, ∃ n, e = GcEvent.finalizerRun n d) ∧
      (evIds (finalizePhase d h q).2).Sublist q ∧
      (∀ n, GcEvent.finalizerRun n d ∈ (finalizePhase d h q).2 → isMarked h n = false) := by
  intro q
  induction q with
  | nil =>
    intro h
    refine ⟨?_, ?_, ?_⟩ <;> simp [finalizePhase, evIds]
  | cons n rest ih =>
    intro h
    cases hf : findBox h n with
    | none =>
      simp only [finalizePhase, hf]
      obtain ⟨i1, i2, i3⟩ := ih h
      exact ⟨i1, i2.cons n, i3⟩
    | some b =>
      by_cases hm : hdrIsMarked b.hdr = true
      · simp only [finalizePhase, hf, if_pos hm]
        obtain ⟨i1, i2, i3⟩ := ih h
        exact ⟨i1, i2.cons n, i3⟩
      · simp only [finalizePhase, hf, if_neg hm]
        obtain ⟨i1, i2, i3⟩ := ih (runFinalizer h n b.finSteps)
        refine ⟨?_, ?_, ?_⟩
        · intro e he
          rcases List.mem_cons.mp he with h1 | h1
          · exact ⟨n, h1⟩
          · exact i1 e h1
        · rw [evIds_cons_fin]
          exact i2.cons₂ n
        · intro m hmem
          rcases List.mem_cons.mp hmem with h1 | h1
          · have hmn : m = n := by
              injection h1 with h1a h1b
            subst hmn
            unfold isMarked
            rw [hf]
            simpa using hm
          · have := i3 m h1
            rwa [isMarked_runFinalizer] at this

/-! ### Sweep lemmas -/

lemma sweepWalk_unmarked :
    ∀ (h : Heap) (bytes : Nat) (b : GcBox),
      b ∈ (sweepWalk h bytes).1 → hdrIsMarked b.hdr = false := by
  intro h
  induction h with
  | nil =>
    intro bytes b hb
    simp [sweepWalk] at hb
  | cons x t ih =>
    intro bytes b hb
    by_cases hm : hdrIsMarked x.hdr = true
    · simp only [sweepWalk, if_pos hm] at hb
      rcases List.mem_cons.mp hb with h1 | h1
      · rw [h1]
        exact hdrIsMarked_hdrUnmark x.hdr
      · exact ih bytes b h1
    · simp only [sweepWalk, if_neg hm] at hb
      exact ih (bytes - x.size) b hb

lemma sweepWalk_events :
    ∀ (h : Heap) (bytes : Nat) (e : GcEvent),
      e ∈ (sweepWalk h bytes).2.2 → ∃ n, e = GcEvent.freed n true := by
  intro h
  induction h with
  | nil =>
    intro bytes e he
    simp [sweepWalk] at he
  | cons x t ih =>
    intro bytes e he
    by_cases hm : hdrIsMarked x.hdr = true
    · simp only [sweepWalk, if_pos hm] at he
      exact ih bytes e he
    · simp only [sweepWalk, if_neg hm] at he
      rcases List.mem_cons.mp he with h1 | h1
      · exact ⟨x.id, h1⟩
      · exact ih (bytes - x.size) e h1

/-! ### collect_garbage unfolding -/

lemma collect_log_shape (st : GcState) :
    (collect_garbage st).2 =
      [GcEvent.markStart, GcEvent.markEnd] ++
        (finalizePhase st.dropping (markPhase st.boxes_start).1
          (markPhase st.boxes_start).2).2 ++
        [GcEvent.markStart, GcEvent.markEnd] ++ [GcEvent.sweepStart] ++
        (sweepWalk
          (markPhase (finalizePhase st.dropping (markPhase st.boxes_start).1
            (markPhase st.boxes_start).2).1).1
          st.stats.bytes_allocated).2.2 ++ [GcEvent.sweepEnd] := rfl

lemma collect_heap (st : GcState) :
    (collect_garbage st).1.boxes_start =
      (sweepWalk
        (markPhase (finalizePhase st.dropping (markPhase st.boxes_start).1
          (markPhase st.boxes_start).2).1).1
        st.stats.bytes_allocated).1 := rfl

lemma collect_performed (st : GcState) :
    (collect_garbage st).1.stats.collections_performed =
      st.stats.collections_performed + 1 := rfl

lemma collect_config (st : GcState) :
    (collect_garbage st).1.config = st.config := rfl

/-! ### Handle lemmas (Gc clone / drop) -/

lemma Gc.rooted_set_root (g : Gc) : (Gc.set_root g).rooted = true := by
  unfold Gc.set_root Gc.rooted
  have : (g.ptr_root / 2 * 2 + 1) % 2 = 1 := by omega
  simp [this]

lemma Gc.target_set_root (g : Gc) : (Gc.set_root g).target = g.target := by
  show (g.ptr_root / 2 * 2 + 1) / 2 = g.ptr_root / 2
  omega

lemma Gc.rooted_clear_root (g : Gc) : (Gc.clear_root g).rooted = false := by
  unfold Gc.clear_root Gc.rooted
  have : g.ptr_root / 2 * 2 % 2 = 0 := by omega
  simp [this]

lemma Gc.target_clear_root (g : Gc) : (Gc.clear_root g).target = g.target := by
  show g.ptr_root / 2 * 2 / 2 = g.ptr_root / 2
  omega

lemma gcClone_eq (h : Heap) (g : Gc) (b : GcBox) (w : Nat)
    (hf : findBox h g.target = some b) (hi : inc_roots b.hdr = some w) :
    gcClone false h g =
      some (updBox h g.target (fun bb => { bb with hdr := w }), Gc.set_root g) := by
  simp [gcClone, hf, hi]

lemma gcDrop_rooted (h : Heap) (g : Gc) (hr : g.rooted = true) :
    gcDrop false h g =
      some (updBox h g.target (fun b => { b with hdr := dec_roots b.hdr })) := by
  simp [gcDrop, hr]

lemma gcCloneN_spec (n : Nat) :
    ∀ (h : Heap) (g : Gc) (b : GcBox),
      findBox h g.target = some b → b.hdr < USIZE_MOD →
      hdrRoots b.hdr + n ≤ ROOTS_MAX →
      ∃ h1, gcCloneN false n h g = some (h1, List.replicate n (Gc.set_root g)) ∧
        findBox h1 g.target = some { b with hdr := b.hdr + n } ∧
        (∀ m, m ≠ g.target → findBox h1 m = findBox h m) := by
  induction n with
  | zero =>
    intro h g b hf hlt hroom
    exact ⟨h, rfl, hf, fun m _ => rfl⟩
  | succ n ih =>
    intro h g b hf hlt hroom
    have hrlt : hdrRoots b.hdr < ROOTS_MAX := by omega
    have hrlt2 : b.hdr % MARK_MASK < ROOTS_MAX := hrlt
    have hinc : inc_roots b.hdr = some (b.hdr + 1) := by
      unfold inc_roots
      rw [if_pos hrlt2]
    obtain ⟨-, hr1, hm1, hlt1⟩ := inc_roots_some b.hdr (b.hdr + 1) hlt hinc
    have hf' : findBox (updBox h g.target (fun bb => { bb with hdr := b.hdr + 1 }))
        g.target = some { b with hdr := b.hdr + 1 } := by
      rw [findBox_updBox h g.target (fun bb => { bb with hdr := b.hdr + 1 })
        (fun bb => rfl) g.target, if_pos rfl, hf]
      rfl
    have hroom' :
        hdrRoots ({ b with hdr := b.hdr + 1 } : GcBox).hdr + n ≤ ROOTS_MAX := by
      show hdrRoots (b.hdr + 1) + n ≤ ROOTS_MAX
      rw [hr1]
      omega
    obtain ⟨h1, hcl, hfind, hoth⟩ :=
      ih (updBox h g.target (fun bb => { bb with hdr := b.hdr + 1 })) g
        { b with hdr := b.hdr + 1 } hf' hlt1 hroom'
    have hc1 := gcClone_eq h g b (b.hdr + 1) hf hinc
    refine ⟨h1, ?_, ?_, ?_⟩
    · simp only [gcCloneN, hc1, hcl, List.replicate]
    · have harith : b.hdr + 1 + n = b.hdr + (n + 1) := by omega
      rw [← harith]
      exact hfind
    · intro m hm
      rw [hoth m hm, findBox_updBox h g.target (fun bb => { bb with hdr := b.hdr + 1 })
        (fun bb => rfl) m, if_neg hm]

lemma gcDropAll_replicate (k : Nat) :
    ∀ (h : Heap) (g : Gc) (b : GcBox),
      findBox h g.target = some b → k ≤ b.hdr → b.hdr < USIZE_MOD →
      ∃ h2, gcDropAll false h (List.replicate k (Gc.set_root g)) = some h2 ∧
        findBox h2 g.target = some { b with hdr := b.hdr - k } ∧
        (∀ m, m ≠ g.target → findBox h2 m = findBox h m) := by
  induction k with
  | zero =>
    intro h g b hf _ _
    exact ⟨h, rfl, hf, fun m _ => rfl⟩
  | succ k ih =>
    intro h g b hf hge hlt
    have hdec : dec_roots b.hdr = b.hdr - 1 := dec_roots_of_pos b.hdr (by omega) hlt
    have hdrop : gcDrop false h (Gc.set_root g) =
        some (updBox h g.target (fun bb => { bb with hdr := dec_roots bb.hdr })) := by
      rw [gcDrop_rooted h (Gc.set_root g) (Gc.rooted_set_root g), Gc.target_set_root]
    have hf' : findBox (updBox h g.target (fun bb => { bb with hdr := dec_roots bb.hdr }))
        g.target = some { b with hdr := b.hdr - 1 } := by
      rw [findBox_updBox h g.target (fun bb => { bb with hdr := dec_roots bb.hdr })
        (fun bb => rfl) g.target, if_pos rfl, hf]
      simp only [Option.map_some']
      rw [hdec]
    obtain ⟨h2, hda, hfind, hoth⟩ :=
      ih (updBox h g.target (fun bb => { bb with hdr := dec_roots bb.hdr })) g
        { b with hdr := b.hdr - 1 } hf' (show k ≤ b.hdr - 1 by omega)
        (show b.hdr - 1 < USIZE_MOD by omega)
    refine ⟨h2, ?_, ?_, ?_⟩
    · simp only [List.replicate, gcDropAll, hdrop, hda]
    · have harith : b.hdr - 1 - k = b.hdr - (k + 1) := by omega
      rw [← harith]
      exact hfind
    · intro m hm
      rw [hoth m hm, findBox_updBox h g.target
        (fun bb => { bb with hdr := dec_roots bb.hdr }) (fun bb => rfl) m, if_neg hm]

/-! ### Borrow-flag lemmas -/

lemma borrowed_set_writing (f : Nat) : borrowed (set_writing f) = BorrowState.writing := by
  unfold borrowed set_writing WRITING UNUSED
  have hU : USIZE_MOD = 2 ^ 64 := rfl
  rw [hU]
  have h1 : (f % 2 + (2 ^ 64 - 2)) / 2 * 2 = 2 ^ 64 - 2 := by omega
  rw [h1, if_neg (by omega), if_pos rfl]

lemma flagRooted_set_writing (f : Nat) : flagRooted (set_writing f) = flagRooted f := by
  unfold flagRooted set_writing WRITING
  have hU : USIZE_MOD = 2 ^ 64 := rfl
  rw [hU]
  have h1 : (f % 2 + (2 ^ 64 - 2)) % 2 = f % 2 := by omega
  rw [h1]

lemma borrowed_set_unused (f : Nat) : borrowed (set_unused f) = BorrowState.unused := by
  unfold borrowed set_unused UNUSED
  have h1 : f % 2 / 2 * 2 = 0 := by omega
  rw [h1, if_pos rfl]

lemma flagRooted_set_unused (f : Nat) : flagRooted (set_unused f) = flagRooted f := by
  unfold flagRooted set_unused
  have h1 : f % 2 % 2 = f % 2 := by omega
  rw [h1]

lemma gcRoot_eq (h : Heap) (g : Gc) (b : GcBox) (w : Nat)
    (hgr : g.rooted = false) (hf : findBox h g.target = some b)
    (hi : inc_roots b.hdr = some w) :
    gcRoot h g =
      some (updBox h g.target (fun bb => { bb with hdr := w }), Gc.set_root g) := by
  simp [gcRoot, hgr, hf, hi]

lemma gcUnroot_eq (h : Heap) (g : Gc) (hr : g.rooted = true) :
    gcUnroot h g =
      some (updBox h g.target (fun b => { b with hdr := dec_roots b.hdr }),
        Gc.clear_root g) := by
  simp [gcUnroot, hr]

/-! ### Event-trace bookkeeping for collect_garbage -/

lemma finalizerRun_mem_collect (st : GcState) (n : Nat) (d : Bool)
    (hm : GcEvent.finalizerRun n d ∈ (collect_garbage st).2) :
    GcEvent.finalizerRun n d ∈
      (finalizePhase st.dropping (markPhase st.boxes_start).1
        (markPhase st.boxes_start).2).2 ∧ d = st.dropping := by
  rw [collect_log_shape] at hm
  simp only [List.mem_append, List.mem_cons, List.mem_singleton,
    List.not_mem_nil, or_false] at hm
  rcases hm with ((((hA | hB) | hC) | hD) | hE) | hF
  · rcases hA with h1 | h1
    · exact GcEvent.noConfusion h1
    · exact GcEvent.noConfusion h1
  · obtain ⟨m, heq⟩ :=
      ((finalizePhase_spec st.dropping (markPhase st.boxes_start).2
        (markPhase st.boxes_start).1).1) _ hB
    have hd : d = st.dropping := by
      injection heq with h1 h2
    exact ⟨hB, hd⟩
  · rcases hC with h1 | h1
    · exact GcEvent.noConfusion h1
    · exact GcEvent.noConfusion h1
  · exact GcEvent.noConfusion hD
  · obtain ⟨m, heq⟩ := sweepWalk_events _ _ _ hE
    exact GcEvent.noConfusion heq
  · exact GcEvent.noConfusion hF

lemma evIds_collect (st : GcState) :
    evIds (collect_garbage st).2 =
      evIds (finalizePhase st.dropping (markPhase st.boxes_start).1
        (markPhase st.boxes_start).2).2 := by
  rw [collect_log_shape]
  unfold evIds
  rw [List.filterMap_append, List.filterMap_append, List.filterMap_append,
    List.filterMap_append, List.filterMap_append]
  have hsw : List.filterMap
      (fun e =>
        match e with
        | GcEvent.finalizerRun n _ => some n
        | _ => none)
      (sweepWalk
        (markPhase (finalizePhase st.dropping (markPhase st.boxes_start).1
          (markPhase st.boxes_start).2).1).1
        st.stats.bytes_allocated).2.2 = [] := by
    rw [List.filterMap_eq_nil_iff]
    intro e he
    obtain ⟨m, heq⟩ := sweepWalk_events _ _ _ he
    rw [heq]
  rw [hsw]
  simp

lemma count_markStart_collect (st : GcState) :
    (collect_garbage st).2.count GcEvent.markStart = 2 := by
  rw [collect_log_shape]
  rw [List.count_append, List.count_append, List.count_append,
    List.count_append, List.count_append]
  have hfin : ((finalizePhase st.dropping (markPhase st.boxes_start).1
      (markPhase st.boxes_start).2).2).count GcEvent.markStart = 0 := by
    rw [List.count_eq_zero]
    intro hmem
    obtain ⟨m, heq⟩ :=
      ((finalizePhase_spec st.dropping (markPhase st.boxes_start).2
        (markPhase st.boxes_start).1).1) _ hmem
    exact GcEvent.noConfusion heq
  have hsw : ((sweepWalk
      (markPhase (finalizePhase st.dropping (markPhase st.boxes_start).1
        (markPhase st.boxes_start).2).1).1
      st.stats.bytes_allocated).2.2).count GcEvent.markStart = 0 := by
    rw [List.count_eq_zero]
    intro hmem
    obtain ⟨m, heq⟩ := sweepWalk_events _ _ _ hmem
    exact GcEvent.noConfusion heq
  rw [hfin, hsw]
  rfl

lemma sweepStart_mem_collect (st : GcState) :
    GcEvent.sweepStart ∈ (collect_garbage st).2 := by
  rw [collect_log_shape]
  simp

/-! ### Claim theorems -/

/-- C1: evaluating collect_garbage on the resurrection scenario of the
repository's own tests (a rooted box, plus an unreachable candidate whose
finalizer installs a handle to the candidate into the rooted box's payload).
The finalizer runs and the edge 0 → 1 is present before the second mark
pass, i.e. the candidate has been made reachable from a rooted box again —
yet the second mark pass leaves it unmarked (the rooted box is still marked
from the first pass, so trace_inner refuses to trace through it; no mark bit
is cleared between the passes), and the sweep frees it: the final heap keeps
only the rooted box, now holding a dangling edge to the freed candidate.
This contradicts the claim that a resurrected candidate is marked by the
second pass and not freed. -/
theorem c1_resurrected_candidate_swept :
    GcEvent.finalizerRun 1 false ∈ (collect_garbage c1State).2 ∧
    (findBox (finalizePhase c1State.dropping (markPhase c1State.boxes_start).1
        (markPhase c1State.boxes_start).2).1 0).map (fun b => b.children) =
      some [1] ∧
    isMarked (markPhase (finalizePhase c1State.dropping
        (markPhase c1State.boxes_start).1 (markPhase c1State.boxes_start).2).1).1
        1 = false ∧
    GcEvent.freed 1 true ∈ (collect_garbage c1State).2 ∧
    (collect_garbage c1State).1.boxes_start = [{ c1Root with children := [1] }] := by
  decide

/-- C2 (counterexample): the header has no finalized flag.  A box whose
finalizer resurrects it by leaking a rooted clone survives the first
collection with its finalizer already run once; after the user drops that
handle, a second collection runs the same box's finalizer again (ghost run
counter 2), and the box is never freed in between — refuting "the user
finalizer runs at most once per box lifetime". -/
theorem c2_finalizer_reruns_counterexample :
    (gcDrop false (collect_garbage c2State).1.boxes_start (mkGc 5 true)).isSome =
      true ∧
    GcEvent.finalizerRun 5 false ∈ (collect_garbage c2State).2 ∧
    GcEvent.finalizerRun 5 false ∈ (collect_garbage c2StateAfterDrop).2 ∧
    (∀ d, GcEvent.freed 5 d ∉ (collect_garbage c2State).2) ∧
    (∀ d, GcEvent.freed 5 d ∉ (collect_garbage c2StateAfterDrop).2) ∧
    ((collect_garbage c2StateAfterDrop).1.boxes_start.map
      (fun b => (b.id, b.finCount))) = [(5, 2)] := by
  decide

/-- C2 (amended): within a single collection each box's finalizer is invoked
at most once (for heaps without ephemeron boxes and with distinct box ids);
across collections there is no finalized flag, so a resurrected box's
finalizer can run again in a later collection. -/
theorem c2_finalizer_once_per_collection (st : GcState)
    (hne : ∀ b ∈ st.boxes_start, b.eph = false)
    (hnd : (heapIds st.boxes_start).Nodup) :
    ∀ n : Nat, (evIds (collect_garbage st).2).count n ≤ 1 := by
  intro n
  rw [evIds_collect]
  obtain ⟨hq, -⟩ := markPhase_no_eph st.boxes_start hne
  have hsub := (finalizePhase_spec st.dropping (markPhase st.boxes_start).2
      (markPhase st.boxes_start).1).2.1
  have hqsub : ((markPhase st.boxes_start).2).Sublist (heapIds st.boxes_start) := by
    rw [hq]
    exact List.filter_sublist _
  have hnodupq : ((markPhase st.boxes_start).2).Nodup := hqsub.nodup hnd
  have hnodup : (evIds (finalizePhase st.dropping (markPhase st.boxes_start).1
      (markPhase st.boxes_start).2).2).Nodup := hsub.nodup hnodupq
  exact List.nodup_iff_count_le_one.mp hnodup n

/-- Witness for C2 (amended) at the concrete one-box heap. -/
theorem c2_finalizer_once_per_collection_witness :
    (∀ b ∈ c2State.boxes_start, b.eph = false) ∧
    (heapIds c2State.boxes_start).Nodup ∧
    (evIds (collect_garbage c2State).2).count 5 ≤ 1 :=
  ⟨by decide, by decide,
    c2_finalizer_once_per_collection c2State (by decide) (by decide) 5⟩

/-- C3 (counterexample): on a heap with one unreachable box, the collection
log shows its finalizer running with the thread-local dropping flag clear
(finalizerRun 3 false) — so finalizer_safe() is true at that moment and a
Gc deref performed inside the finalizer succeeds rather than panicking,
refuting "the sweeping/dropping flag is set whenever a finalizer runs". -/
theorem c3_finalizer_flag_counterexample :
    GcEvent.finalizerRun 3 false ∈ (collect_garbage c3State).2 ∧
    finalizer_safe false = true ∧
    gcDeref false c3State.boxes_start (mkGc 3 false) = some c3Box := by
  decide

/-- C3 (amended): the dropping flag is set only during the sweep phase:
every finalizer in a collection started with the flag clear runs with the
flag clear (so dereferencing a managed pointer inside it does not panic),
every payload freed by the sweep is dropped with the flag set, and
Gc::inner_ptr's finalizer_safe assertion panics exactly when the flag is
set. -/
theorem c3_dropping_flag_only_during_sweep (st : GcState)
    (hd : st.dropping = false) :
    (∀ n d, GcEvent.finalizerRun n d ∈ (collect_garbage st).2 → d = false) ∧
    (∀ n d, GcEvent.freed n d ∈ (collect_garbage st).2 → d = true) ∧
    (∀ (h : Heap) (g : Gc), gcDeref false h g = findBox h g.target) ∧
    (∀ (h : Heap) (g : Gc), gcDeref true h g = none) := by
  refine ⟨?_, ?_, fun h g => rfl, fun h g => rfl⟩
  · intro n d hm
    have := (finalizerRun_mem_collect st n d hm).2
    rw [this, hd]
  · intro n d hm
    rw [collect_log_shape] at hm
    simp only [List.mem_append, List.mem_cons, List.mem_singleton,
      List.not_mem_nil, or_false] at hm
    rcases hm with ((((hA | hB) | hC) | hD) | hE) | hF
    · rcases hA with h1 | h1 <;> exact GcEvent.noConfusion h1
    · obtain ⟨m, heq⟩ :=
        ((finalizePhase_spec st.dropping (markPhase st.boxes_start).2
          (markPhase st.boxes_start).1).1) _ hB
      exact GcEvent.noConfusion heq
    · rcases hC with h1 | h1 <;> exact GcEvent.noConfusion h1
    · exact GcEvent.noConfusion hD
    · obtain ⟨m, heq⟩ := sweepWalk_events _ _ _ hE
      injection heq with h1 h2
    · exact GcEvent.noConfusion hF

/-- Witness for C3 (amended) at the concrete one-box heap. -/
theorem c3_dropping_flag_only_during_sweep_witness :
    c3State.dropping = false ∧
    (∀ n d, GcEvent.finalizerRun n d ∈ (collect_garbage c3State).2 → d = false) :=
  ⟨rfl, (c3_dropping_flag_only_during_sweep c3State rfl).1⟩

/-- C4 (counterexample): on a heap whose only box is rooted the candidate
list is empty, yet the collection does not return early: the log still
records the second mark pass and the sweep.  (collections_performed is
nevertheless incremented exactly once, at entry.) -/
theorem c4_no_early_exit_counterexample :
    (markPhase c4State.boxes_start).2 = [] ∧
    (collect_garbage c4State).2 =
      [GcEvent.markStart, GcEvent.markEnd, GcEvent.markStart, GcEvent.markEnd,
        GcEvent.sweepStart, GcEvent.sweepEnd] ∧
    GcEvent.sweepStart ∈ (collect_garbage c4State).2 ∧
    (collect_garbage c4State).1.stats.collections_performed = 1 := by
  decide

/-- C4 (amended): every collection increments collections_performed by
exactly one (at entry), and — empty candidate list or not — both mark
passes run (the log counts two markStart events) and the sweep runs (the
log contains sweepStart). -/
theorem c4_collection_counter_and_phases (st : GcState) :
    (collect_garbage st).1.stats.collections_performed =
      st.stats.collections_performed + 1 ∧
    GcEvent.sweepStart ∈ (collect_garbage st).2 ∧
    (collect_garbage st).2.count GcEvent.markStart = 2 :=
  ⟨collect_performed st, sweepStart_mem_collect st, count_markStart_collect st⟩

/-- C5 (counterexample): the claim reserves the two highest bits (mark and
finalized) and so puts the root-count ceiling at 2 ^ 62 - 1.  But inc_roots
at that claimed ceiling succeeds instead of aborting, and a count of 2 ^ 62
(second-highest bit set) is an ordinary unmarked root count — only the
single mark bit is reserved. -/
theorem c5_root_range_counterexample :
    inc_roots (2 ^ 62 - 1) = some (2 ^ 62) ∧
    hdrRoots (2 ^ 62) = 2 ^ 62 ∧
    hdrIsMarked (2 ^ 62) = false := by
  decide

/-- C5 (amended): the legal root-count range is 0 .. 2 ^ 63 - 1 — only the
mark flag occupies the top bit, there is no finalized flag — and inc_roots
panics exactly when the masked count has reached ROOTS_MAX; otherwise it
adds one to the count without touching the mark bit (no wrap). -/
theorem c5_inc_roots_ceiling (w : Nat) (hw : w < USIZE_MOD) :
    (inc_roots w = none ↔ hdrRoots w = ROOTS_MAX) ∧
    (∀ v, inc_roots w = some v →
      v = w + 1 ∧ hdrRoots v = hdrRoots w + 1 ∧
      hdrIsMarked v = hdrIsMarked w ∧ v < USIZE_MOD) :=
  ⟨inc_roots_eq_none_iff w, fun v hv => inc_roots_some w v hw hv⟩

/-- Witness for C5 (amended) at w = 5. -/
theorem c5_inc_roots_ceiling_witness :
    (5 : Nat) < USIZE_MOD ∧ (inc_roots 5 = none ↔ hdrRoots 5 = ROOTS_MAX) :=
  ⟨by decide, (c5_inc_roots_ceiling 5 (by decide)).1⟩

/-- C6: Gc::clone returns a rooted handle to the same box and increments the
target's root count; dropping a rooted handle decrements it.  Cloning a
handle n times (within the counter's range) yields n rooted handles to the
same box, raises the root count by exactly n, and dropping all n clones
returns the target's header word — hence its root count — to its pre-clone
value, all without touching any other box. -/
theorem c6_clone_drop_roundtrip (h : Heap) (g : Gc) (b : GcBox) (n : Nat)
    (hf : findBox h g.target = some b) (hlt : b.hdr < USIZE_MOD)
    (hroom : hdrRoots b.hdr + n ≤ ROOTS_MAX) :
    ∃ h1, gcCloneN false n h g = some (h1, List.replicate n (Gc.set_root g)) ∧
      (∀ c ∈ List.replicate n (Gc.set_root g),
        Gc.target c = g.target ∧ Gc.rooted c = true) ∧
      findBox h1 g.target = some { b with hdr := b.hdr + n } ∧
      hdrRoots (b.hdr + n) = hdrRoots b.hdr + n ∧
      (∀ m, m ≠ g.target → findBox h1 m = findBox h m) ∧
      ∃ h2, gcDropAll false h1 (List.replicate n (Gc.set_root g)) = some h2 ∧
        findBox h2 g.target = some b ∧
        (∀ m, m ≠ g.target → findBox h2 m = findBox h m) := by
  obtain ⟨h1, hcl, hfind, hoth⟩ := gcCloneN_spec n h g b hf hlt hroom
  have hroom2 : b.hdr % 2 ^ 63 + n ≤ 2 ^ 63 - 1 := hroom
  have hlt2 : b.hdr < 2 ^ 64 := hlt
  have hroots2 : hdrRoots (b.hdr + n) = hdrRoots b.hdr + n := by
    show (b.hdr + n) % 2 ^ 63 = b.hdr % 2 ^ 63 + n
    omega
  have hblt : b.hdr + n < USIZE_MOD := by
    show b.hdr + n < 2 ^ 64
    omega
  obtain ⟨h2, hda, hf2, ho2⟩ :=
    gcDropAll_replicate n h1 g { b with hdr := b.hdr + n } hfind
      (show n ≤ b.hdr + n by omega) hblt
  refine ⟨h1, hcl, ?_, hfind, hroots2, hoth, h2, hda, ?_,
    fun m hm => (ho2 m hm).trans (hoth m hm)⟩
  · intro c hc
    rw [List.eq_of_mem_replicate hc]
    exact ⟨Gc.target_set_root g, Gc.rooted_set_root g⟩
  · rw [show (({ b with hdr := b.hdr + n } : GcBox).hdr - n) = b.hdr by
      show b.hdr + n - n = b.hdr
      omega] at hf2
    exact hf2

/-- Witness for C6 at a concrete one-box heap with two clones. -/
theorem c6_clone_drop_roundtrip_witness :
    findBox [c6Box] (Gc.target (mkGc 7 true)) = some c6Box ∧
    hdrRoots c6Box.hdr + 2 ≤ ROOTS_MAX ∧
    ∃ h1, gcCloneN false 2 [c6Box] (mkGc 7 true) =
        some (h1, List.replicate 2 (Gc.set_root (mkGc 7 true))) ∧
      findBox h1 (Gc.target (mkGc 7 true)) =
        some { c6Box with hdr := c6Box.hdr + 2 } := by
  refine ⟨by decide, by decide, ?_⟩
  obtain ⟨h1, hcl, -, hfind, -, -, -⟩ :=
    c6_clone_drop_roundtrip [c6Box] (mkGc 7 true) c6Box 2 (by decide) (by decide)
      (by decide)
  exact ⟨h1, hcl, hfind⟩

/-- C7: when try_borrow_mut succeeds on an unused cell whose rooted flag is
false, the guard roots the cell's contents (the contained handle becomes
rooted and the target box's root count rises by one) and the borrow state
becomes writing; dropping the guard unroots the contents if and only if the
cell is still unrooted — a rooted cell's guard drop leaves the heap alone —
and always restores the borrow state to unused, preserving the rooted bit;
the target's header word returns to its pre-borrow value.  try_borrow_mut
fails with the borrow error exactly when the state is not unused. -/
theorem c7_borrow_mut_rooting (h : Heap) (fl : Nat) (g : Gc) (b : GcBox)
    (hb : borrowed fl = BorrowState.unused) (hnr : flagRooted fl = false)
    (hgr : g.rooted = false) (hf : findBox h g.target = some b)
    (hlt : b.hdr < USIZE_MOD) (hroom : hdrRoots b.hdr < ROOTS_MAX) :
    try_borrow_mut h ⟨fl, g⟩ =
      BorrowMutResult.ok
        (updBox h g.target (fun bb => { bb with hdr := b.hdr + 1 }))
        ⟨set_writing fl, Gc.set_root g⟩ ∧
    borrowed (set_writing fl) = BorrowState.writing ∧
    flagRooted (set_writing fl) = false ∧
    (Gc.set_root g).rooted = true ∧
    (Gc.set_root g).target = g.target ∧
    findBox (updBox h g.target (fun bb => { bb with hdr := b.hdr + 1 }))
      g.target = some { b with hdr := b.hdr + 1 } ∧
    hdrRoots (b.hdr + 1) = hdrRoots b.hdr + 1 ∧
    gcCellRefMutDrop (updBox h g.target (fun bb => { bb with hdr := b.hdr + 1 }))
        ⟨set_writing fl, Gc.set_root g⟩ =
      some (updBox (updBox h g.target (fun bb => { bb with hdr := b.hdr + 1 }))
          g.target (fun bb => { bb with hdr := dec_roots bb.hdr }),
        ⟨set_unused (set_writing fl), Gc.clear_root (Gc.set_root g)⟩) ∧
    findBox (updBox (updBox h g.target (fun bb => { bb with hdr := b.hdr + 1 }))
        g.target (fun bb => { bb with hdr := dec_roots bb.hdr })) g.target =
      some b ∧
    borrowed (set_unused (set_writing fl)) = BorrowState.unused ∧
    flagRooted (set_unused (set_writing fl)) = flagRooted fl ∧
    (∀ (hh : Heap) (c : GcCellG), flagRooted c.flags = true →
      gcCellRefMutDrop hh c = some (hh, { c with flags := set_unused c.flags })) ∧
    (∀ (hh : Heap) (c : GcCellG), borrowed c.flags ≠ BorrowState.unused →
      try_borrow_mut hh c = BorrowMutResult.borrowErr) := by
  have hrlt2 : b.hdr % MARK_MASK < ROOTS_MAX := hroom
  have hinc : inc_roots b.hdr = some (b.hdr + 1) := by
    unfold inc_roots
    rw [if_pos hrlt2]
  have hlt1 : b.hdr + 1 < USIZE_MOD :=
    (inc_roots_some b.hdr (b.hdr + 1) hlt hinc).2.2.2
  have hfup : findBox (updBox h g.target (fun bb => { bb with hdr := b.hdr + 1 }))
      g.target = some { b with hdr := b.hdr + 1 } := by
    rw [findBox_updBox h g.target (fun bb => { bb with hdr := b.hdr + 1 })
      (fun bb => rfl) g.target, if_pos rfl, hf]
    rfl
  have hroots1 : hdrRoots (b.hdr + 1) = hdrRoots b.hdr + 1 :=
    (inc_roots_some b.hdr (b.hdr + 1) hlt hinc).2.1
  have hdec : dec_roots (b.hdr + 1) = b.hdr := by
    rw [dec_roots_of_pos (b.hdr + 1) (by omega) hlt1]
    omega
  have hfr : flagRooted (set_writing fl) = false := by
    rw [flagRooted_set_writing]
    exact hnr
  have htb : try_borrow_mut h ⟨fl, g⟩ =
      BorrowMutResult.ok
        (updBox h g.target (fun bb => { bb with hdr := b.hdr + 1 }))
        ⟨set_writing fl, Gc.set_root g⟩ := by
    simp only [try_borrow_mut]
    rw [if_neg (fun hne => hne hb),
      if_neg (show ¬ flagRooted (set_writing fl) = true by
        rw [hfr]
        exact Bool.false_ne_true),
      gcRoot_eq h g b (b.hdr + 1) hgr hf hinc]
  have hdrop : gcCellRefMutDrop
      (updBox h g.target (fun bb => { bb with hdr := b.hdr + 1 }))
      ⟨set_writing fl, Gc.set_root g⟩ =
      some (updBox (updBox h g.target (fun bb => { bb with hdr := b.hdr + 1 }))
          g.target (fun bb => { bb with hdr := dec_roots bb.hdr }),
        ⟨set_unused (set_writing fl), Gc.clear_root (Gc.set_root g)⟩) := by
    simp only [gcCellRefMutDrop]
    rw [if_neg (show ¬ flagRooted (set_writing fl) = true by
        rw [hfr]
        exact Bool.false_ne_true),
      gcUnroot_eq _ (Gc.set_root g) (Gc.rooted_set_root g), Gc.target_set_root]
  have hback : findBox (updBox
      (updBox h g.target (fun bb => { bb with hdr := b.hdr + 1 }))
      g.target (fun bb => { bb with hdr := dec_roots bb.hdr })) g.target =
      some b := by
    rw [findBox_updBox _ g.target (fun bb => { bb with hdr := dec_roots bb.hdr })
      (fun bb => rfl) g.target, if_pos rfl, hfup]
    show some { b with hdr := dec_roots (b.hdr + 1) } = some b
    rw [hdec]
  refine ⟨htb, borrowed_set_writing fl, hfr, Gc.rooted_set_root g,
    Gc.target_set_root g, hfup, hroots1, hdrop, hback,
    borrowed_set_unused (set_writing fl), ?_, ?_, ?_⟩
  · rw [flagRooted_set_unused, flagRooted_set_writing]
  · intro hh c hcr
    simp only [gcCellRefMutDrop]
    rw [if_pos hcr]
  · intro hh c hcne
    simp only [try_borrow_mut]
    rw [if_pos hcne]

/-- Witness for C7 at a concrete one-box heap. -/
theorem c7_borrow_mut_rooting_witness :
    borrowed 0 = BorrowState.unused ∧ flagRooted 0 = false ∧
    try_borrow_mut [c7Box] ⟨0, mkGc 9 false⟩ =
      BorrowMutResult.ok
        (updBox [c7Box] (Gc.target (mkGc 9 false))
          (fun bb => { bb with hdr := c7Box.hdr + 1 }))
        ⟨set_writing 0, Gc.set_root (mkGc 9 false)⟩ := by
  refine ⟨by decide, by decide, ?_⟩
  exact (c7_borrow_mut_rooting [c7Box] 0 (mkGc 9 false) c7Box (by decide)
    (by decide) (by decide) (by decide) (by decide) (by decide)).1

/-- C8: on allocation, a collection runs first exactly when bytes_allocated
exceeds the threshold (strictly); in that case, if afterwards
bytes_allocated is at or below threshold * used_space_ratio the threshold is
left alone, and if it is strictly above, the threshold is raised to
bytes_allocated / used_space_ratio (truncated to usize); in all cases the
new box is spliced onto the chain head and its size added to
bytes_allocated.  The f64 arithmetic of the source is modelled as exact
rational arithmetic. -/
theorem c8_threshold_policy (st : GcState) (t : GcBox) (ty : GcBoxType) :
    (st.stats.bytes_allocated ≤ st.config.threshold →
      (gcBoxNew st t ty).2 = [] ∧
      (gcBoxNew st t ty).1.stats.collections_performed =
        st.stats.collections_performed ∧
      (gcBoxNew st t ty).1.config.threshold = st.config.threshold ∧
      (gcBoxNew st t ty).1.boxes_start =
        { t with hdr := newHdr ty, eph := newEph ty, finCount := 0 } ::
          st.boxes_start ∧
      (gcBoxNew st t ty).1.stats.bytes_allocated =
        st.stats.bytes_allocated + t.size) ∧
    (st.config.threshold < st.stats.bytes_allocated →
      (gcBoxNew st t ty).1.stats.collections_performed =
        st.stats.collections_performed + 1 ∧
      (((collect_garbage st).1.stats.bytes_allocated : ℚ) ≤
          (st.config.threshold : ℚ) * st.config.used_space_ratio →
        (gcBoxNew st t ty).1.config.threshold = st.config.threshold) ∧
      ((st.config.threshold : ℚ) * st.config.used_space_ratio <
          ((collect_garbage st).1.stats.bytes_allocated : ℚ) →
        (gcBoxNew st t ty).1.config.threshold =
          (⌊((collect_garbage st).1.stats.bytes_allocated : ℚ) /
            st.config.used_space_ratio⌋).toNat)) := by
  constructor
  · intro hle
    have hnc : ¬ st.config.threshold < st.stats.bytes_allocated := not_lt.mpr hle
    refine ⟨?_, ?_, ?_, ?_, ?_⟩ <;>
      · simp only [gcBoxNew]
        rw [if_neg hnc]
  · intro hgt
    by_cases hc2 : (st.config.threshold : ℚ) * st.config.used_space_ratio <
        ((collect_garbage st).1.stats.bytes_allocated : ℚ)
    · have hc2i : ((collect_garbage st).1.config.threshold : ℚ) *
          (collect_garbage st).1.config.used_space_ratio <
          ((collect_garbage st).1.stats.bytes_allocated : ℚ) := hc2
      refine ⟨?_, ?_, ?_⟩
      · simp only [gcBoxNew]
        rw [if_pos hgt, if_pos hc2i]
        rfl
      · intro h3
        exact absurd hc2 (not_lt.mpr h3)
      · intro _
        simp only [gcBoxNew]
        rw [if_pos hgt, if_pos hc2i]
        rfl
    · have hc2i : ¬ (((collect_garbage st).1.config.threshold : ℚ) *
          (collect_garbage st).1.config.used_space_ratio <
          ((collect_garbage st).1.stats.bytes_allocated : ℚ)) := hc2
      refine ⟨?_, ?_, ?_⟩
      · simp only [gcBoxNew]
        rw [if_pos hgt, if_neg hc2i]
        rfl
      · intro _
        simp only [gcBoxNew]
        rw [if_pos hgt, if_neg hc2i]
        rfl
      · intro h3
        exact absurd h3 hc2


/-- Witness for C8 at a concrete state below the threshold. -/
theorem c8_threshold_policy_witness :
    c8State.stats.bytes_allocated ≤ c8State.config.threshold ∧
    (gcBoxNew c8State c8NewBox GcBoxType.Standard).1.config.threshold =
      c8State.config.threshold ∧
    (gcBoxNew c8State c8NewBox GcBoxType.Standard).1.stats.bytes_allocated =
      c8State.stats.bytes_allocated + c8NewBox.size := by
  refine ⟨by decide, ?_, ?_⟩
  · exact ((c8_threshold_policy c8State c8NewBox GcBoxType.Standard).1
      (by decide)).2.2.1
  · exact ((c8_threshold_policy c8State c8NewBox GcBoxType.Standard).1
      (by decide)).2.2.2.2

/-- C9: the mark flag is clear outside a running collection: a freshly
allocated standard box has roots word 1 (unmarked, one root) and every box
type starts unmarked; when collect_garbage returns, every box left on the
chain is unmarked (the sweep unmarks every survivor); and allocation keeps
an all-unmarked heap all-unmarked. -/
theorem c9_mark_clear_outside_collection (st : GcState) (t : GcBox)
    (ty : GcBoxType) :
    newHdr GcBoxType.Standard = 1 ∧
    hdrIsMarked (newHdr ty) = false ∧
    (∀ b ∈ (collect_garbage st).1.boxes_start, hdrIsMarked b.hdr = false) ∧
    ((∀ b ∈ st.boxes_start, hdrIsMarked b.hdr = false) →
      ∀ b ∈ (gcBoxNew st t ty).1.boxes_start, hdrIsMarked b.hdr = false) := by
  have hnm : ∀ ty' : GcBoxType, hdrIsMarked (newHdr ty') = false := by
    intro ty'
    cases ty' <;> decide
  refine ⟨rfl, hnm ty, ?_, ?_⟩
  · intro b hb
    rw [collect_heap] at hb
    exact sweepWalk_unmarked _ _ b hb
  · intro hall b hb
    simp only [gcBoxNew] at hb
    by_cases hc : st.config.threshold < st.stats.bytes_allocated
    · rw [if_pos hc] at hb
      by_cases hc2 : ((collect_garbage st).1.config.threshold : ℚ) *
          (collect_garbage st).1.config.used_space_ratio <
          ((collect_garbage st).1.stats.bytes_allocated : ℚ)
      · rw [if_pos hc2] at hb
        rcases List.mem_cons.mp hb with h1 | h1
        · rw [h1]
          exact hnm ty
        · rw [collect_heap] at h1
          exact sweepWalk_unmarked _ _ b h1
      · rw [if_neg hc2] at hb
        rcases List.mem_cons.mp hb with h1 | h1
        · rw [h1]
          exact hnm ty
        · rw [collect_heap] at h1
          exact sweepWalk_unmarked _ _ b h1
    · rw [if_neg hc] at hb
      rcases List.mem_cons.mp hb with h1 | h1
      · rw [h1]
        exact hnm ty
      · exact hall b h1

/-- Witness for C9 on a concrete heap. -/
theorem c9_mark_clear_outside_collection_witness :
    (∀ b ∈ c9State.boxes_start, hdrIsMarked b.hdr = false) ∧
    (∀ b ∈ (gcBoxNew c9State c9NewBox GcBoxType.Standard).1.boxes_start,
      hdrIsMarked b.hdr = false) :=
  ⟨by decide,
    (c9_mark_clear_outside_collection c9State c9NewBox GcBoxType.Standard).2.2.2
      (by decide)⟩

/-- C10: on a heap without ephemeron boxes, the finalize queue gathered by
the first mark walk consists exactly of the chain boxes whose root count is
zero at the moment they are visited (tracing never changes a root count, so
this is the filter of the original heap, in chain order, marked or not);
every finalizer the collection runs belongs to a queued box that is unmarked
both when the finalize loop reaches it and already at the end of the first
mark pass (finalizer effects never set mark bits); and any box the first
mark pass found reachable — i.e. marked — never has its finalizer invoked. -/
theorem c10_finalize_only_unmarked (st : GcState)
    (hne : ∀ b ∈ st.boxes_start, b.eph = false) :
    (markPhase st.boxes_start).2 =
      (heapIds st.boxes_start).filter (zeroRootCond st.boxes_start) ∧
    (∀ n d, GcEvent.finalizerRun n d ∈ (collect_garbage st).2 →
      n ∈ (markPhase st.boxes_start).2 ∧
      isMarked (markPhase st.boxes_start).1 n = false) ∧
    (∀ n, isMarked (markPhase st.boxes_start).1 n = true →
      ∀ d, GcEvent.finalizerRun n d ∉ (collect_garbage st).2) := by
  obtain ⟨hq, -⟩ := markPhase_no_eph st.boxes_start hne
  have hspec := finalizePhase_spec st.dropping (markPhase st.boxes_start).2
    (markPhase st.boxes_start).1
  refine ⟨hq, ?_, ?_⟩
  · intro n d hm
    obtain ⟨hfin, hd⟩ := finalizerRun_mem_collect st n d hm
    refine ⟨hspec.2.1.subset (mem_evIds n d _ hfin), ?_⟩
    rw [hd] at hfin
    exact hspec.2.2 n hfin
  · intro n hmk d hm
    obtain ⟨hfin, hd⟩ := finalizerRun_mem_collect st n d hm
    rw [hd] at hfin
    have hcontra := hspec.2.2 n hfin
    rw [hcontra] at hmk
    exact Bool.noConfusion hmk

/-- Witness for C10: the rooted box 20 keeps its child 21 alive; 21 is
queued as a candidate (its root count is zero when visited) but is marked,
so it is skipped; the truly unreachable box 22 is finalized. -/
theorem c10_finalize_only_unmarked_witness :
    (∀ b ∈ c10State.boxes_start, b.eph = false) ∧
    (markPhase c10State.boxes_start).2 = [21, 22] ∧
    isMarked (markPhase c10State.boxes_start).1 21 = true ∧
    (∀ d, GcEvent.finalizerRun 21 d ∉ (collect_garbage c10State).2) ∧
    GcEvent.finalizerRun 22 false ∈ (collect_garbage c10State).2 := by
  refine ⟨by decide, by decide, by decide, ?_, by decide⟩
  exact fun d =>
    (c10_finalize_only_unmarked c10State (by decide)).2.2 21 (by decide) d

end RustGc
